import Mathlib

/-!
A verification development for the UOTA training core (`main_uota.py`):
the queue-length configuration and the per-crop-group FIFO feature queue,
the queue warm latch in `train`, the `distributed_sinkhorn` assignment
engine (instantiated at one worker, where the collective reductions are
the identity), the epoch-gated outlier-weighted loss, and the infinity
guard `shoot_infs`.

Finite-dimensional tensors of floats are embedded two ways:
as exact rational matrices (`Fin (K+1) → Fin (N+1) → ℚ`) for the claims
about executions in which no division by zero or overflow occurs, and as
lists over an IEEE-style extended value type `FVal` (finite rational,
signed infinity, NaN) for the claims about the infinity guard itself.
-/

namespace Uota

/-! ## Definitions -/

/-! ### Queue length configuration (`main`, line 230) -/

/-- Queue-length truncation performed in `main` (line 230):
`args.queue_length -= args.queue_length % (args.batch_size * args.world_size)`. -/
def truncQueueLength (queueLength batchSize worldSize : ℕ) : ℕ :=
  queueLength - queueLength % (batchSize * worldSize)

/-! ### The feature-queue push (`train`, lines 331-332)

`queue[i, bs:] = queue[i, :-bs].clone()` shifts the existing content down
by `bs` rows (dropping the oldest `bs` rows), and
`queue[i, :bs] = embedding[...]` writes the new batch at the front. -/

/-- One push of a batch of `bs` rows into a buffer of `L` rows. -/
def queuePush {α : Type} {bs L : ℕ} (b : Fin bs → α) (buf : Fin L → α) : Fin L → α :=
  fun j =>
    if h : (j : ℕ) < bs then b ⟨j, h⟩
    else buf ⟨(j : ℕ) - bs, Nat.lt_of_le_of_lt (Nat.sub_le _ _) j.isLt⟩

/-- Pushing a list of batches in order (the head of the list is pushed first). -/
def queuePushList {α : Type} {bs L : ℕ} (l : List (Fin bs → α)) (buf : Fin L → α) :
    Fin L → α :=
  l.foldl (fun q b => queuePush b q) buf

/-! ### The latch and per-epoch queue dynamics in `train` (lines 293, 322-332) -/

/-- The per-worker queue/latch state carried through `train`: one buffer of
`L+1` slots of `D`-dimensional rows per crop group, plus the
`use_the_queue` flag (re-initialized to `False` at line 293 on every call
of `train`, i.e. every epoch). -/
structure QueueState (G L D : ℕ) where
  queue : Fin G → Fin (L + 1) → Fin D → ℚ
  useQ : Bool

/-- The sentinel check of line 324: `not torch.all(queue[i, -1, :] == 0)`. -/
def finalSlotNonzero {L D : ℕ} (buf : Fin (L + 1) → Fin D → ℚ) : Bool :=
  !(decide (∀ d, buf (Fin.last L) d = 0))

/-- Whether the queue of group `i` is treated as warm at a given point
(line 324: `use_the_queue or not torch.all(queue[i, -1, :] == 0)`). -/
def groupWarm {G L D : ℕ} (st : QueueState G L D) (i : Fin G) : Bool :=
  st.useQ || finalSlotNonzero (st.queue i)

/-- Processing of one crop group inside a training step (lines 322-332):
the latch becomes the warm check (it is set to `True` exactly when the
check passes, and otherwise left as it was), and the group's buffer
receives this step's embeddings for that group. -/
def groupStep {G L D bs : ℕ} (emb : Fin G → Fin bs → Fin D → ℚ)
    (st : QueueState G L D) (i : Fin G) : QueueState G L D :=
  { queue := Function.update st.queue i (queuePush (emb i) (st.queue i)),
    useQ := groupWarm st i }

/-- One training step: the groups are processed in order. -/
def trainStep {G L D bs : ℕ} (emb : Fin G → Fin bs → Fin D → ℚ)
    (st : QueueState G L D) : QueueState G L D :=
  (List.finRange G).foldl (groupStep emb) st

/-- The steps of one epoch, driven by the per-step embeddings. -/
def trainSteps {G L D bs : ℕ} (embs : List (Fin G → Fin bs → Fin D → ℚ))
    (st : QueueState G L D) : QueueState G L D :=
  embs.foldl (fun s e => trainStep e s) st

/-- One call of `train` (one epoch): line 293 re-initializes
`use_the_queue = False` before any step runs. -/
def trainEpoch {G L D bs : ℕ} (embs : List (Fin G → Fin bs → Fin D → ℚ))
    (st : QueueState G L D) : QueueState G L D :=
  trainSteps embs { queue := st.queue, useQ := false }

/-- The epoch loop of `main` restricted to the queue/latch state. -/
def runEpochs {G L D bs : ℕ} (epochs : List (List (Fin G → Fin bs → Fin D → ℚ)))
    (st : QueueState G L D) : QueueState G L D :=
  epochs.foldl (fun s e => trainEpoch e s) st

/-- The initial queue of the concrete run used against the latch claim: one
group, two slots, and a nonzero value in the final slot. -/
def qEx0 : Fin 1 → Fin 2 → Fin 1 → ℚ := fun _ s _ => if s = 1 then 5 else 0

/-- All-zero embeddings for every step of the concrete run. -/
def embEx : Fin 1 → Fin 1 → Fin 1 → ℚ := fun _ _ _ => 0

/-- The concrete run's starting state. -/
def stEx : QueueState 1 1 1 := ⟨qEx0, false⟩

/-! ### Queue construction and the activation-epoch check in `main`
(lines 225-230 and 243-249) -/

/-- Queue construction in `main` (lines 225-228): the queue starts as
`None` unless a serialized file for this worker's rank exists, in which
case the queue is loaded from it. -/
def initialQueue {B : Type} (fileQueue : Option B) : Option B := fileQueue

/-- The per-epoch allocation check of `main` (lines 243-249):
`if args.queue_length > 0 and epoch >= args.epoch_queue_starts and queue is None`,
a fresh all-zero queue is allocated; otherwise the queue is left alone. -/
def maybeStartQueue {B : Type} (queueLength epochQueueStarts epoch : ℕ)
    (freshQueue : B) (q : Option B) : Option B :=
  if 0 < queueLength ∧ epochQueueStarts ≤ epoch ∧ q.isNone then some freshQueue else q

/-! ### The epoch-gated outlier-weighted loss (`train`, lines 344-351) -/

/-- The per-sample term `torch.sum(q * torch.log(p), dim=1)` of lines
349/351: `q` is the assignment target and `logp` holds the values
`torch.log(p)` of the softmax-normalized predictions. -/
def ceTerm {B K : ℕ} (q logp : Fin (B + 1) → Fin (K + 1) → ℚ) (b : Fin (B + 1)) : ℚ :=
  ∑ k, q b k * logp b k

/-- The contribution of one other crop `v` to `subloss` (lines 346-351):
when `epoch + 1 > args.epoch_uota_starts` each per-sample term is
multiplied by that sample's weight before the batch mean is taken
(line 349), otherwise the plain batch mean is taken (line 351); the
contribution enters `subloss` negated. -/
def cropLossTerm {B K : ℕ} (epoch epochUotaStarts : ℕ)
    (q logp : Fin (B + 1) → Fin (K + 1) → ℚ) (w : Fin (B + 1) → ℚ) : ℚ :=
  if epochUotaStarts < epoch + 1 then
    -((∑ b, ceTerm q logp b * w b) / ((B : ℚ) + 1))
  else
    -((∑ b, ceTerm q logp b) / ((B : ℚ) + 1))

/-- Concrete assignment targets for the loss-boundary scenario. -/
def qLossEx : Fin 2 → Fin 1 → ℚ := fun _ _ => 1

/-- Concrete log-predictions for the loss-boundary scenario. -/
def lpLossEx : Fin 2 → Fin 1 → ℚ := fun _ _ => -1

/-- Concrete non-uniform sample weights for the loss-boundary scenario. -/
def wLossEx : Fin 2 → ℚ := fun b => if b = 0 then 0 else 1

/-! ### The assignment engine `distributed_sinkhorn` (lines 397-412),
exact-arithmetic single-worker embedding

`Q` is the `K × N` matrix `exp(scores / epsilon).t()` handed over by
`train` (lines 334-340). At one worker every `dist.all_reduce` is the
identity, and on a matrix of positive rationals the `shoot_infs` calls of
lines 399 and 409 are the identity as well (no entry is infinite — the
`FVal` embedding below covers the guard itself), so they are inlined
away here. Matrices are nonempty (`K+1` rows, `N+1` columns), as a score
matrix produced from a nonempty batch is. -/

/-- `sum_Q = torch.sum(Q)` (line 400). -/
def totalSum {K N : ℕ} (Q : Fin (K + 1) → Fin (N + 1) → ℚ) : ℚ := ∑ i, ∑ j, Q i j

/-- `Q /= sum_Q` (line 402), with the single-worker `all_reduce` identity. -/
def sinkhornInit {K N : ℕ} (Q : Fin (K + 1) → Fin (N + 1) → ℚ) :
    Fin (K + 1) → Fin (N + 1) → ℚ :=
  fun i j => Q i j / totalSum Q

/-- `torch.sum(Q, dim=1)` (line 406). -/
def rowSum {K N : ℕ} (Q : Fin (K + 1) → Fin (N + 1) → ℚ) (i : Fin (K + 1)) : ℚ :=
  ∑ j, Q i j

/-- `torch.sum(Q, dim=0)` (line 411). -/
def colSum {K N : ℕ} (Q : Fin (K + 1) → Fin (N + 1) → ℚ) (j : Fin (N + 1)) : ℚ :=
  ∑ i, Q i j

/-- Lines 406-410: `u = r / torch.sum(Q, dim=1)` then `Q *= u.unsqueeze(1)`. -/
def rowScaled {K N : ℕ} (r : ℚ) (Q : Fin (K + 1) → Fin (N + 1) → ℚ) :
    Fin (K + 1) → Fin (N + 1) → ℚ :=
  fun i j => Q i j * (r / rowSum Q i)

/-- One iteration of the inner loop (lines 405-411): the row rescaling
followed by `Q *= (c / torch.sum(Q, dim=0)).unsqueeze(0)`. -/
def sinkhornStep {K N : ℕ} (r c : ℚ) (Q : Fin (K + 1) → Fin (N + 1) → ℚ) :
    Fin (K + 1) → Fin (N + 1) → ℚ :=
  fun i j => rowScaled r Q i j * (c / colSum (rowScaled r Q) j)

/-- The fixed-count inner loop (`for it in range(nmb_iters)`, line 405). -/
def sinkhornIter {K N : ℕ} (r c : ℚ) :
    ℕ → (Fin (K + 1) → Fin (N + 1) → ℚ) → (Fin (K + 1) → Fin (N + 1) → ℚ)
  | 0, Q => Q
  | n + 1, Q => sinkhornIter r c n (sinkhornStep r c Q)

/-- The state of `Q` just before the final per-column renormalization of
line 412: the initial global normalization followed by `iters` loop
iterations, with `r = 1 / Q.shape[0]` (line 403) and
`c = 1 / (args.world_size * Q.shape[1])` (line 404). -/
def sinkhornBody {K N : ℕ} (worldSize iters : ℕ)
    (Q : Fin (K + 1) → Fin (N + 1) → ℚ) : Fin (K + 1) → Fin (N + 1) → ℚ :=
  sinkhornIter (1 / ((K : ℚ) + 1)) (1 / ((worldSize : ℚ) * ((N : ℚ) + 1))) iters
    (sinkhornInit Q)

/-- The full engine (lines 397-412): the loop state divided once more by
its column sums and transposed, `(Q / torch.sum(Q, dim=0, keepdim=True)).t()`. -/
def distributed_sinkhorn {K N : ℕ} (worldSize iters : ℕ)
    (Q : Fin (K + 1) → Fin (N + 1) → ℚ) : Fin (N + 1) → Fin (K + 1) → ℚ :=
  fun j i =>
    sinkhornBody worldSize iters Q i j / colSum (sinkhornBody worldSize iters Q) j

/-- The matrix handed to `distributed_sinkhorn` by `train` without the
numerical-stability branch (lines 334, 339): `torch.exp(out / epsilon).t()`.
The exponential is an abstract `expF : ℚ → ℚ`; each claim states the
properties of the real exponential it relies on. -/
def assignScoresQ {K N : ℕ} (eps : ℚ) (expF : ℚ → ℚ)
    (scores : Fin (N + 1) → Fin (K + 1) → ℚ) : Fin (K + 1) → Fin (N + 1) → ℚ :=
  fun i j => expF (scores j i / eps)

/-- The global maximum `M = torch.max(q)` of line 336 (at one worker the
`all_reduce` max of line 337 is the identity), where `q = out / epsilon`. -/
def scoresMax {K N : ℕ} (eps : ℚ) (scores : Fin (N + 1) → Fin (K + 1) → ℚ) : ℚ :=
  Finset.univ.sup' Finset.univ_nonempty
    (fun p : Fin (N + 1) × Fin (K + 1) => scores p.1 p.2 / eps)

/-- The matrix handed to `distributed_sinkhorn` with
`improve_numerical_stability` enabled (lines 335-339): `q -= M` before
exponentiating. -/
def assignScoresQStable {K N : ℕ} (eps : ℚ) (expF : ℚ → ℚ)
    (scores : Fin (N + 1) → Fin (K + 1) → ℚ) : Fin (K + 1) → Fin (N + 1) → ℚ :=
  fun i j => expF (scores j i / eps - scoresMax eps scores)

/-- The assignment targets of line 340 before the `[-bs:]` slice,
stability mode disabled. -/
def assignTargets {K N : ℕ} (worldSize iters : ℕ) (eps : ℚ) (expF : ℚ → ℚ)
    (scores : Fin (N + 1) → Fin (K + 1) → ℚ) : Fin (N + 1) → Fin (K + 1) → ℚ :=
  distributed_sinkhorn worldSize iters (assignScoresQ eps expF scores)

/-- The assignment targets of line 340 with stability mode enabled. -/
def assignTargetsStable {K N : ℕ} (worldSize iters : ℕ) (eps : ℚ) (expF : ℚ → ℚ)
    (scores : Fin (N + 1) → Fin (K + 1) → ℚ) : Fin (N + 1) → Fin (K + 1) → ℚ :=
  distributed_sinkhorn worldSize iters (assignScoresQStable eps expF scores)

/-- A concrete exponential-stand-in satisfying the positivity and
homomorphism hypotheses, used to instantiate witnesses. -/
def expOne : ℚ → ℚ := fun _ => 1

/-! ### IEEE-style extended values and the infinity guard `shoot_infs`
(lines 415-431) -/

/-- An IEEE-style float value: a finite rational, a signed infinity
(`inf true` is `+∞`, `inf false` is `-∞`), or NaN. -/
inductive FVal : Type where
  | fin : ℚ → FVal
  | inf : Bool → FVal
  | nan : FVal
deriving DecidableEq

/-- `torch.isinf`: true exactly on the two infinities; false on NaN. -/
def FVal.isinf : FVal → Bool
  | .inf _ => true
  | _ => false

/-- True on every non-finite value: the two infinities and NaN. -/
def FVal.isNonFinite : FVal → Bool
  | .fin _ => false
  | _ => true

/-- IEEE addition. -/
def FVal.add : FVal → FVal → FVal
  | .nan, _ => .nan
  | _, .nan => .nan
  | .inf s, .inf t => if s = t then .inf s else .nan
  | .inf s, .fin _ => .inf s
  | .fin _, .inf t => .inf t
  | .fin a, .fin b => .fin (a + b)

/-- IEEE multiplication: `0 * ∞ = NaN`, signs multiply. -/
def FVal.mul : FVal → FVal → FVal
  | .nan, _ => .nan
  | _, .nan => .nan
  | .inf s, .inf t => .inf (s == t)
  | .inf s, .fin a => if a = 0 then .nan else .inf (if 0 < a then s else !s)
  | .fin a, .inf t => if a = 0 then .nan else .inf (if 0 < a then t else !t)
  | .fin a, .fin b => .fin (a * b)

/-- IEEE division: a nonzero finite value divided by zero is a signed
infinity, `0 / 0 = NaN`, `∞ / ∞ = NaN`, finite over infinite is zero. -/
def FVal.div : FVal → FVal → FVal
  | .nan, _ => .nan
  | _, .nan => .nan
  | .inf _, .inf _ => .nan
  | .inf s, .fin b => if b = 0 then .inf s else .inf (if 0 ≤ b then s else !s)
  | .fin _, .inf _ => .fin 0
  | .fin a, .fin b =>
      if b = 0 then (if a = 0 then .nan else (if 0 < a then .inf true else .inf false))
      else .fin (a / b)

/-- The binary maximum as `torch.max` computes it: NaN propagates. -/
def FVal.fmax : FVal → FVal → FVal
  | .nan, _ => .nan
  | _, .nan => .nan
  | .inf true, _ => .inf true
  | _, .inf true => .inf true
  | .inf false, x => x
  | x, .inf false => x
  | .fin a, .fin b => .fin (max a b)

/-- `torch.sum` over a 1-D tensor. -/
def fsum (l : List FVal) : FVal := l.foldl FVal.add (.fin 0)

/-- `torch.max` reduction over a 1-D tensor (the empty case is never
reached by `shoot_infs`, which only takes the maximum of a tensor that
contained an infinity). -/
def fmaxList : List FVal → FVal
  | [] => .fin 0
  | x :: xs => xs.foldl FVal.fmax x

/-- The infinity guard `shoot_infs` (lines 415-431) on a 1-D tensor: if
any entry is infinite under `torch.isinf` (NaN is not), those entries are
first zeroed, `m = torch.max` of the zeroed tensor is taken, and the same
entries are then set to `m`; otherwise the tensor is returned unchanged. -/
def shoot_infs (t : List FVal) : List FVal :=
  if t.any FVal.isinf then
    t.map fun v =>
      if v.isinf then fmaxList (t.map fun x => if x.isinf then FVal.fin 0 else x) else v
  else t

/-- `shoot_infs` on a 2-D tensor (the `len(ind) == 2` branch of lines
421-422 and 427-428): the infinite entries are zeroed, the maximum of the
whole zeroed tensor is taken, and those entries are set to it. -/
def shoot_infs2 (t : List (List FVal)) : List (List FVal) :=
  if t.any (fun row => row.any FVal.isinf) then
    t.map fun row => row.map fun v =>
      if v.isinf then
        fmaxList ((t.map fun r => r.map fun x =>
          if x.isinf then FVal.fin 0 else x).flatten)
      else v
  else t

/-! ### The inner loop of `distributed_sinkhorn` over extended values
(lines 405-411), for the claims about where the guard is applied -/

/-- `torch.sum(Q, dim=1)` over an extended-value matrix (a list of rows). -/
def frowSums (Q : List (List FVal)) : List FVal := Q.map fsum

/-- `torch.sum(Q, dim=0)` over an extended-value matrix. -/
def fcolSums (Q : List (List FVal)) : List FVal := Q.transpose.map fsum

/-- Lines 406-409: `u = r / torch.sum(Q, dim=1)` followed by
`u = shoot_infs(u)` — the row factors ARE sanitized. -/
def frowFactors (r : FVal) (Q : List (List FVal)) : List FVal :=
  shoot_infs ((frowSums Q).map fun s => FVal.div r s)

/-- Line 410: `Q *= u.unsqueeze(1)` — row `i` is scaled by `u[i]`. -/
def fscaleRows (u : List FVal) (Q : List (List FVal)) : List (List FVal) :=
  List.zipWith (fun ui row => row.map fun x => FVal.mul x ui) u Q

/-- The column factors of line 411, `c / torch.sum(Q, dim=0)` — the
source applies NO guard to these. -/
def fcolFactors (c : FVal) (Q : List (List FVal)) : List FVal :=
  (fcolSums Q).map fun s => FVal.div c s

/-- Line 411: `Q *= (c / torch.sum(Q, dim=0)).unsqueeze(0)`. -/
def fscaleCols (v : List FVal) (Q : List (List FVal)) : List (List FVal) :=
  Q.map fun row => List.zipWith FVal.mul row v

/-- One iteration of the inner loop (lines 405-411) over extended values,
exactly as the source orders it: sanitized row factors, row scaling, then
unsanitized column factors and column scaling. -/
def fsinkhornStep (r c : FVal) (Q : List (List FVal)) : List (List FVal) :=
  fscaleCols (fcolFactors c (fscaleRows (frowFactors r Q) Q))
    (fscaleRows (frowFactors r Q) Q)

/-- Modelled from the spec sentence behind the claim: a variant of the
inner iteration in which the column factors `c / colSums` are ALSO passed
through the infinity guard before the multiply. The source (line 411)
does not do this; comparing the two refutes the claim. -/
def fsinkhornStepColGuarded (r c : FVal) (Q : List (List FVal)) : List (List FVal) :=
  fscaleCols (shoot_infs (fcolFactors c (fscaleRows (frowFactors r Q) Q)))
    (fscaleRows (frowFactors r Q) Q)

/-- The concrete inner-loop input with an exactly-zero column: two rows,
two columns, second column zero. With `r = c = 1/2` (the source's values
for a 2×2 single-worker matrix) the zero column sum produces an infinite
column factor. -/
def fQEx : List (List FVal) :=
  [[FVal.fin (1/2), FVal.fin 0], [FVal.fin (1/2), FVal.fin 0]]

/-! ## Helper lemmas -/

theorem queuePushList_concat {α : Type} {bs L : ℕ} (l : List (Fin bs → α))
    (b : Fin bs → α) (buf : Fin L → α) :
    queuePushList (l ++ [b]) buf = queuePush b (queuePushList l buf) := by
  simp [queuePushList, List.foldl_append]

theorem queuePushList_getD {α : Type} [Inhabited α] {bs L : ℕ} :
    ∀ (l : List (Fin bs → α)) (buf : Fin L → α) (m : ℕ) (r : Fin bs) (j : Fin L),
      m < l.length → l.length * bs ≤ L → (j : ℕ) = m * bs + ↑r →
      queuePushList l buf j = (l.reverse.getD m (fun _ => default)) r := by
  intro l
  induction l using List.reverseRecOn with
  | nil => intro buf m r j hm _ _; simp at hm
  | append_singleton l b ih =>
    intro buf m r j hm hcap hj
    rw [queuePushList_concat, List.reverse_append, List.reverse_singleton,
      List.singleton_append]
    cases m with
    | zero =>
      simp only [Nat.zero_mul, Nat.zero_add] at hj
      have hjb : (j : ℕ) < bs := by rw [hj]; exact r.isLt
      simp only [queuePush, dif_pos hjb, List.getD_cons_zero]
      congr 1
      exact Fin.ext hj
    | succ m =>
      rw [Nat.succ_mul] at hj
      have hjb : ¬ ((j : ℕ) < bs) := by omega
      simp only [queuePush, dif_neg hjb, List.getD_cons_succ]
      have hm' : m < l.length := by
        simp only [List.length_append, List.length_singleton] at hm; omega
      have hlen : l.length * bs ≤ L := by
        simp only [List.length_append, List.length_singleton, Nat.succ_mul] at hcap
        omega
      exact ih buf m r _ hm' hlen (by simp only [Fin.val_mk]; omega)

theorem groupStep_useQ_mono {G L D bs : ℕ} (emb : Fin G → Fin bs → Fin D → ℚ)
    (st : QueueState G L D) (i : Fin G) (h : st.useQ = true) :
    (groupStep emb st i).useQ = true := by
  simp [groupStep, groupWarm, h]

theorem foldl_groupStep_useQ {G L D bs : ℕ} (emb : Fin G → Fin bs → Fin D → ℚ) :
    ∀ (l : List (Fin G)) (st : QueueState G L D), st.useQ = true →
      (l.foldl (groupStep emb) st).useQ = true := by
  intro l
  induction l with
  | nil => intro st h; exact h
  | cons x xs ih => intro st h; exact ih _ (groupStep_useQ_mono emb st x h)

theorem trainSteps_useQ_mono {G L D bs : ℕ} :
    ∀ (embs : List (Fin G → Fin bs → Fin D → ℚ)) (st : QueueState G L D),
      st.useQ = true → (trainSteps embs st).useQ = true := by
  intro embs
  induction embs with
  | nil => intro st h; exact h
  | cons e es ih =>
    intro st h
    exact ih _ (foldl_groupStep_useQ e (List.finRange G) st h)

/-! ## Claim theorems -/

/-- Claim C9: at configuration time the configured queue length is reduced
to the nearest lower multiple of `batchSize * worldSize` (divisible by it,
no larger than the configured value, and at least every such multiple
below the configured value); in particular a configured length of 10 with
`batchSize = 4` and `worldSize = 1` becomes 8. -/
theorem queue_length_truncation (q b w : ℕ) (h : 0 < b * w) :
    b * w ∣ truncQueueLength q b w ∧ truncQueueLength q b w ≤ q ∧
      (∀ m, b * w ∣ m → m ≤ q → m ≤ truncQueueLength q b w) ∧
      truncQueueLength 10 4 1 = 8 := by
  have hmod := Nat.mod_add_div q (b * w)
  refine ⟨⟨q / (b * w), by unfold truncQueueLength; omega⟩, Nat.sub_le _ _, ?_, by decide⟩
  intro m hdvd hle
  rcases hdvd with ⟨t, rfl⟩
  have ht : t ≤ q / (b * w) := by
    rw [Nat.le_div_iff_mul_le h]
    calc t * (b * w) = b * w * t := by ring
    _ ≤ q := hle
  have h2 : b * w * t ≤ b * w * (q / (b * w)) := Nat.mul_le_mul_left _ ht
  unfold truncQueueLength
  omega

/-- Witness for C9: the truncation facts evaluated at the configured
length 10 with batch size 4 and world size 1. -/
theorem queue_length_truncation_holds :
    (4 * 1 ∣ truncQueueLength 10 4 1) ∧ truncQueueLength 10 4 1 ≤ 10 ∧
      truncQueueLength 10 4 1 = 8 :=
  ⟨(queue_length_truncation 10 4 1 (by decide)).1,
    (queue_length_truncation 10 4 1 (by decide)).2.1,
    (queue_length_truncation 10 4 1 (by decide)).2.2.2⟩

/-- Claim C8: a push writes the new batch at the front of the buffer and
shifts the previous content down by `bs` rows (dropping the oldest `bs`
rows); hence after pushing batches `b1, …, bn` in order with
`n * bs ≤ capacity`, the buffer holds them most-recent-first: the rows at
offsets `m * bs … m * bs + bs - 1` are the `(m+1)`-th most recent batch. -/
theorem queue_push_fifo {α : Type} [Inhabited α] {bs L : ℕ} :
    (∀ (b : Fin bs → α) (buf : Fin L → α) (j : Fin L) (hj : (j : ℕ) < bs),
        queuePush b buf j = b ⟨j, hj⟩)
    ∧ (∀ (b : Fin bs → α) (buf : Fin L → α) (j : Fin L), bs ≤ (j : ℕ) →
        queuePush b buf j =
          buf ⟨(j : ℕ) - bs, Nat.lt_of_le_of_lt (Nat.sub_le _ _) j.isLt⟩)
    ∧ (∀ (l : List (Fin bs → α)) (buf : Fin L → α) (m : ℕ) (r : Fin bs) (j : Fin L),
        m < l.length → l.length * bs ≤ L → (j : ℕ) = m * bs + ↑r →
        queuePushList l buf j = (l.reverse.getD m (fun _ => default)) r) := by
  refine ⟨?_, ?_, queuePushList_getD⟩
  · intro b buf j hj
    simp [queuePush, dif_pos hj]
  · intro b buf j hj
    simp [queuePush, dif_neg (Nat.not_lt.mpr hj)]

/-- Witness for C8: pushing the batches `[10]` then `[20]` into a
two-slot rational buffer leaves `20` at the front and `10` below it. -/
theorem queue_push_fifo_holds :
    @queuePushList ℚ 1 2 [fun _ => (10 : ℚ), fun _ => 20]
        (fun _ => 0) ⟨1, by norm_num⟩ = 10
    ∧ @queuePushList ℚ 1 2 [fun _ => (10 : ℚ), fun _ => 20]
        (fun _ => 0) ⟨0, by norm_num⟩ = 20 := by
  constructor
  · have h := (@queue_push_fifo ℚ _ 1 2).2.2
      [fun _ => (10 : ℚ), fun _ => 20] (fun _ => 0) 1 0 ⟨1, by norm_num⟩
      (by norm_num) (by norm_num) (by norm_num)
    simpa using h
  · have h := (@queue_push_fifo ℚ _ 1 2).2.2
      [fun _ => (10 : ℚ), fun _ => 20] (fun _ => 0) 0 0 ⟨0, by norm_num⟩
      (by norm_num) (by norm_num) (by norm_num)
    simpa using h

/-- Claim C10: a queue loaded from this worker's serialized file is the
queue from the very first epoch — the activation-epoch check never
replaces a loaded (non-`None`) queue and only governs allocating a fresh
all-zero queue when none was loaded. -/
theorem queue_resume_load {B : Type} (qlen epq epoch : ℕ) (z buf : B) :
    maybeStartQueue qlen epq epoch z (initialQueue (some buf)) = some buf
    ∧ (maybeStartQueue qlen epq 0 z (initialQueue (some buf))).isSome = true
    ∧ maybeStartQueue qlen epq epoch z none =
        if 0 < qlen ∧ epq ≤ epoch then some z else none := by
  refine ⟨?_, ?_, ?_⟩ <;> simp [maybeStartQueue, initialQueue]

/-- Claim C6: with `epoch + 1 = epoch_uota_starts` the loss contribution
is the unweighted batch mean of the per-sample terms; with
`epoch + 1 = epoch_uota_starts + 1` it is the weighted form where each
per-sample term is multiplied by that sample's weight before the batch
mean; and on a concrete identical input with non-uniform weights the two
values differ. -/
theorem uota_loss_boundary :
    (∀ (B K e : ℕ) (q logp : Fin (B + 1) → Fin (K + 1) → ℚ) (w : Fin (B + 1) → ℚ),
        cropLossTerm e (e + 1) q logp w = -((∑ b, ceTerm q logp b) / ((B : ℚ) + 1)))
    ∧ (∀ (B K e : ℕ) (q logp : Fin (B + 1) → Fin (K + 1) → ℚ) (w : Fin (B + 1) → ℚ),
        cropLossTerm (e + 1) (e + 1) q logp w =
          -((∑ b, ceTerm q logp b * w b) / ((B : ℚ) + 1)))
    ∧ cropLossTerm 1 1 qLossEx lpLossEx wLossEx ≠
        cropLossTerm 0 1 qLossEx lpLossEx wLossEx := by
  refine ⟨?_, ?_, ?_⟩
  · intro B K e q logp w
    simp [cropLossTerm]
  · intro B K e q logp w
    simp [cropLossTerm]
  · norm_num [cropLossTerm, ceTerm, qLossEx, lpLossEx, wLossEx, Fin.sum_univ_succ]

/-- Counterexample to claim C3 as stated: in a concrete run the warm
check passes at the first step of epoch 0 (so the latch is set, and is
still set when epoch 0 ends), yet at the first step of epoch 1 — after
`train` re-initializes `use_the_queue = False` at line 293 and the pushes
of epoch 0 have left the final slot all-zero — the same group's queue is
treated as cold again. The latch does NOT survive across epochs. -/
theorem warm_latch_resets_across_epochs :
    groupWarm ⟨stEx.queue, false⟩ 0 = true
    ∧ (runEpochs [[embEx]] stEx).useQ = true
    ∧ groupWarm ⟨(runEpochs [[embEx]] stEx).queue, false⟩ 0 = false := by
  refine ⟨by decide, by decide, by decide⟩

/-- Claim C3 amended: within a single epoch (one call of `train`) the
latch is monotone — once set it stays set for every later step of that
epoch — but each epoch begins with the latch re-initialized to `False`
(line 293), so the state an epoch computes is independent of the latch
value left by the previous epoch. -/
theorem warm_latch_within_epoch {G L D bs : ℕ} :
    (∀ (embs : List (Fin G → Fin bs → Fin D → ℚ)) (st : QueueState G L D),
        st.useQ = true → (trainSteps embs st).useQ = true)
    ∧ (∀ (embs : List (Fin G → Fin bs → Fin D → ℚ))
        (q : Fin G → Fin (L + 1) → Fin D → ℚ) (b b' : Bool),
        trainEpoch embs ⟨q, b⟩ = trainEpoch embs ⟨q, b'⟩) :=
  ⟨trainSteps_useQ_mono, fun _ _ _ _ => rfl⟩

/-- Witness for the amended C3: a concrete epoch whose state enters with
the latch set keeps it set after its steps run. -/
theorem warm_latch_within_epoch_holds :
    (trainSteps [embEx] (⟨qEx0, true⟩ : QueueState 1 1 1)).useQ = true :=
  (warm_latch_within_epoch).1 [embEx] ⟨qEx0, true⟩ rfl

end Uota

namespace Uota

/-! ## Sinkhorn helper lemmas (exact arithmetic) -/

theorem rowSum_pos {K N : ℕ} {Q : Fin (K + 1) → Fin (N + 1) → ℚ}
    (hQ : ∀ i j, 0 < Q i j) (i : Fin (K + 1)) : 0 < rowSum Q i :=
  Finset.sum_pos (fun j _ => hQ i j) Finset.univ_nonempty

theorem colSum_pos {K N : ℕ} {Q : Fin (K + 1) → Fin (N + 1) → ℚ}
    (hQ : ∀ i j, 0 < Q i j) (j : Fin (N + 1)) : 0 < colSum Q j :=
  Finset.sum_pos (fun i _ => hQ i j) Finset.univ_nonempty

theorem totalSum_pos {K N : ℕ} {Q : Fin (K + 1) → Fin (N + 1) → ℚ}
    (hQ : ∀ i j, 0 < Q i j) : 0 < totalSum Q :=
  Finset.sum_pos
    (fun i _ => Finset.sum_pos (fun j _ => hQ i j) Finset.univ_nonempty)
    Finset.univ_nonempty

theorem rowScaled_pos {K N : ℕ} {r : ℚ} {Q : Fin (K + 1) → Fin (N + 1) → ℚ}
    (hQ : ∀ i j, 0 < Q i j) (hr : 0 < r) (i : Fin (K + 1)) (j : Fin (N + 1)) :
    0 < rowScaled r Q i j :=
  mul_pos (hQ i j) (div_pos hr (rowSum_pos hQ i))

theorem sinkhornStep_pos {K N : ℕ} {r c : ℚ} {Q : Fin (K + 1) → Fin (N + 1) → ℚ}
    (hQ : ∀ i j, 0 < Q i j) (hr : 0 < r) (hc : 0 < c)
    (i : Fin (K + 1)) (j : Fin (N + 1)) : 0 < sinkhornStep r c Q i j :=
  mul_pos (rowScaled_pos hQ hr i j)
    (div_pos hc (colSum_pos (fun i j => rowScaled_pos hQ hr i j) j))

theorem colSum_sinkhornStep {K N : ℕ} {r c : ℚ} {Q : Fin (K + 1) → Fin (N + 1) → ℚ}
    (hQ : ∀ i j, 0 < Q i j) (hr : 0 < r) (j : Fin (N + 1)) :
    colSum (sinkhornStep r c Q) j = c := by
  have hS : colSum (rowScaled r Q) j ≠ 0 :=
    ne_of_gt (colSum_pos (fun i j => rowScaled_pos hQ hr i j) j)
  show (∑ i, rowScaled r Q i j * (c / colSum (rowScaled r Q) j)) = c
  rw [← Finset.sum_mul]
  rw [show (∑ i, rowScaled r Q i j) = colSum (rowScaled r Q) j from rfl]
  rw [mul_comm]
  exact div_mul_cancel₀ c hS

theorem totalSum_sinkhornStep {K N : ℕ} {r c : ℚ} {Q : Fin (K + 1) → Fin (N + 1) → ℚ}
    (hQ : ∀ i j, 0 < Q i j) (hr : 0 < r) :
    totalSum (sinkhornStep r c Q) = ((N : ℚ) + 1) * c := by
  rw [show totalSum (sinkhornStep r c Q) = ∑ j, colSum (sinkhornStep r c Q) j from
    Finset.sum_comm]
  calc ∑ j, colSum (sinkhornStep r c Q) j
      = ∑ _j : Fin (N + 1), c :=
        Finset.sum_congr rfl (fun j _ => colSum_sinkhornStep hQ hr j)
    _ = ((N : ℚ) + 1) * c := by
        simp [Finset.sum_const, Finset.card_univ, nsmul_eq_mul]

theorem sinkhornIter_pos_total {K N : ℕ} {r c : ℚ} (hr : 0 < r) (hc : 0 < c)
    (hcN : ((N : ℚ) + 1) * c = 1) :
    ∀ (n : ℕ) (Q : Fin (K + 1) → Fin (N + 1) → ℚ),
      (∀ i j, 0 < Q i j) → totalSum Q = 1 →
      (∀ i j, 0 < sinkhornIter r c n Q i j) ∧ totalSum (sinkhornIter r c n Q) = 1 := by
  intro n
  induction n with
  | zero => intro Q hQ hT; exact ⟨hQ, hT⟩
  | succ n ih =>
    intro Q hQ hT
    exact ih _ (fun i j => sinkhornStep_pos hQ hr hc i j)
      (by rw [totalSum_sinkhornStep hQ hr, hcN])

theorem sinkhornInit_pos {K N : ℕ} {Q : Fin (K + 1) → Fin (N + 1) → ℚ}
    (hQ : ∀ i j, 0 < Q i j) (i : Fin (K + 1)) (j : Fin (N + 1)) :
    0 < sinkhornInit Q i j :=
  div_pos (hQ i j) (totalSum_pos hQ)

theorem totalSum_sinkhornInit {K N : ℕ} {Q : Fin (K + 1) → Fin (N + 1) → ℚ}
    (hQ : ∀ i j, 0 < Q i j) : totalSum (sinkhornInit Q) = 1 := by
  unfold totalSum sinkhornInit
  simp only [← Finset.sum_div]
  exact div_self (ne_of_gt (totalSum_pos hQ))

theorem rowSum_const {K N : ℕ} (a : ℚ) (i : Fin (K + 1)) :
    rowSum (K := K) (N := N) (fun _ _ => a) i = ((N : ℚ) + 1) * a := by
  simp [rowSum, Finset.sum_const, Finset.card_univ, nsmul_eq_mul]

theorem colSum_const {K N : ℕ} (a : ℚ) (j : Fin (N + 1)) :
    colSum (K := K) (N := N) (fun _ _ => a) j = ((K : ℚ) + 1) * a := by
  simp [colSum, Finset.sum_const, Finset.card_univ, nsmul_eq_mul]

theorem rowScaled_const {K N : ℕ} {r a : ℚ} (ha : a ≠ 0) :
    rowScaled (K := K) (N := N) r (fun _ _ => a) = fun _ _ => r / ((N : ℚ) + 1) := by
  funext i j
  have hN : ((N : ℚ) + 1) ≠ 0 := by positivity
  show a * (r / rowSum (fun _ _ => a) i) = r / ((N : ℚ) + 1)
  rw [rowSum_const]
  field_simp
  ring

theorem sinkhornStep_const {K N : ℕ} {r c a : ℚ} (ha : a ≠ 0) (hr : r ≠ 0) :
    sinkhornStep (K := K) (N := N) r c (fun _ _ => a) =
      fun _ _ => c / ((K : ℚ) + 1) := by
  have hN : ((N : ℚ) + 1) ≠ 0 := by positivity
  have hK : ((K : ℚ) + 1) ≠ 0 := by positivity
  have hrN : r / ((N : ℚ) + 1) ≠ 0 := div_ne_zero hr hN
  funext i j
  show rowScaled r (fun _ _ => a) i j *
      (c / colSum (rowScaled r (fun _ _ => a)) j) = c / ((K : ℚ) + 1)
  rw [rowScaled_const ha, colSum_const]
  field_simp
  ring

theorem sinkhornIter_const {K N : ℕ} {r c : ℚ} (hr : r ≠ 0) (hc : c ≠ 0) :
    ∀ (n : ℕ) (a : ℚ), a ≠ 0 →
      sinkhornIter (K := K) (N := N) r c n (fun _ _ => a) =
        fun _ _ => if n = 0 then a else c / ((K : ℚ) + 1) := by
  intro n
  induction n with
  | zero => intro a ha; simp [sinkhornIter]
  | succ n ih =>
    intro a ha
    have hK : ((K : ℚ) + 1) ≠ 0 := by positivity
    rw [show sinkhornIter (K := K) (N := N) r c (n + 1) (fun _ _ => a) =
        sinkhornIter r c n (sinkhornStep r c (fun _ _ => a)) from rfl]
    rw [sinkhornStep_const ha hr, ih _ (div_ne_zero hc hK)]
    by_cases hn : n = 0 <;> simp [hn]

/-! ## Claim theorems about the assignment engine -/

/-- Claim C1: for every similarity-score input (the engine's input matrix
is the entrywise exponential of the shaped scores, hence has positive
entries) and a worker count of 1, the matrix produced by the fixed-count
normalization loop, taken just before the final per-column
renormalization of line 412, has only non-negative entries and its
entries sum to exactly 1. -/
theorem sinkhorn_pre_renorm_nonneg_sum_one {K N : ℕ} (iters : ℕ) (eps : ℚ)
    (expF : ℚ → ℚ) (hexp : ∀ x, 0 < expF x)
    (scores : Fin (N + 1) → Fin (K + 1) → ℚ) :
    (∀ i j, 0 ≤ sinkhornBody 1 iters (assignScoresQ eps expF scores) i j)
    ∧ totalSum (sinkhornBody 1 iters (assignScoresQ eps expF scores)) = 1 := by
  have hQ : ∀ i j, 0 < assignScoresQ eps expF scores i j := fun i j => hexp _
  have hr : 0 < 1 / ((K : ℚ) + 1) := by positivity
  have hc : 0 < 1 / ((N : ℚ) + 1) := by positivity
  have hcN : ((N : ℚ) + 1) * (1 / ((N : ℚ) + 1)) = 1 :=
    mul_one_div_cancel (by positivity)
  have hbody : sinkhornBody 1 iters (assignScoresQ eps expF scores) =
      sinkhornIter (1 / ((K : ℚ) + 1)) (1 / ((N : ℚ) + 1)) iters
        (sinkhornInit (assignScoresQ eps expF scores)) := by
    unfold sinkhornBody
    norm_num
  rw [hbody]
  have h := sinkhornIter_pos_total hr hc hcN iters _
    (fun i j => sinkhornInit_pos hQ i j) (totalSum_sinkhornInit hQ)
  exact ⟨fun i j => (h.1 i j).le, h.2⟩

/-- Witness for C1: the loop state evaluated for a concrete 1×1 input. -/
theorem sinkhorn_pre_renorm_nonneg_sum_one_holds :
    0 ≤ sinkhornBody (K := 0) (N := 0) 1 1
        (assignScoresQ 1 expOne (fun _ _ => 0)) 0 0
    ∧ totalSum (sinkhornBody (K := 0) (N := 0) 1 1
        (assignScoresQ 1 expOne (fun _ _ => 0))) = 1 :=
  ⟨(sinkhorn_pre_renorm_nonneg_sum_one 1 1 expOne
      (fun x => by norm_num [expOne]) (fun _ _ => 0)).1 0 0,
    (sinkhorn_pre_renorm_nonneg_sum_one 1 1 expOne
      (fun x => by norm_num [expOne]) (fun _ _ => 0)).2⟩

/-- Claim C2: with N = 4 samples, K = 3 clusters, one worker,
`epsilon = 1/10`, 3 iterations, and all similarity scores equal to 0
(so every exponentiated entry is `expF 0 = 1`), the engine returns the
uniform 4×3 assignment matrix with every entry `1/3`. -/
theorem sinkhorn_uniform_example (expF : ℚ → ℚ) (hexp : expF 0 = 1) :
    assignTargets (K := 2) (N := 3) 1 3 (1/10) expF (fun _ _ => 0) =
      fun _ _ => (1/3 : ℚ) := by
  have hin : assignScoresQ (K := 2) (N := 3) (1/10) expF (fun _ _ => 0) =
      fun _ _ => (1 : ℚ) := by
    funext i j
    simp [assignScoresQ, hexp]
  have hinit : sinkhornInit (K := 2) (N := 3) (fun _ _ => (1 : ℚ)) =
      fun _ _ => (1/12 : ℚ) := by
    have ht : totalSum (K := 2) (N := 3) (fun _ _ => (1 : ℚ)) = 12 := by
      simp [totalSum, Finset.sum_const, Finset.card_univ]
      norm_num
    funext i j
    simp [sinkhornInit, ht]
  have hbody : sinkhornBody (K := 2) (N := 3) 1 3 (fun _ _ => (1 : ℚ)) =
      fun _ _ => (1/12 : ℚ) := by
    unfold sinkhornBody
    rw [hinit, sinkhornIter_const (by norm_num) (by norm_num) 3 (1/12) (by norm_num)]
    funext i j
    norm_num
  unfold assignTargets
  rw [hin]
  funext j i
  show sinkhornBody 1 3 (fun _ _ => (1 : ℚ)) i j /
      colSum (sinkhornBody 1 3 (fun _ _ => (1 : ℚ))) j = 1/3
  rw [hbody, colSum_const]
  norm_num

/-- Witness for C2: the scenario instantiated at a concrete exponential
stand-in with `expOne 0 = 1`. -/
theorem sinkhorn_uniform_example_holds :
    assignTargets (K := 2) (N := 3) 1 3 (1/10) expOne (fun _ _ => 0) =
      fun _ _ => (1/3 : ℚ) :=
  sinkhorn_uniform_example expOne rfl

/-- Claim C7: in exact arithmetic, running the engine with
numerical-stability mode enabled (subtracting the global maximum shaped
score before exponentiating, lines 335-338) produces the same final
assignment matrix as running it with the mode disabled: the shared
additive shift becomes a common positive factor that cancels in the
initial global normalization. The hypotheses are the exponential law
`expF (x + y) = expF x * expF y` and nonvanishing of `expF`. -/
theorem stability_shift_cancels {K N : ℕ} (ws iters : ℕ) (eps : ℚ) (expF : ℚ → ℚ)
    (hhom : ∀ x y, expF (x + y) = expF x * expF y) (hne : ∀ x, expF x ≠ 0)
    (scores : Fin (N + 1) → Fin (K + 1) → ℚ) :
    assignTargetsStable ws iters eps expF scores =
      assignTargets ws iters eps expF scores := by
  have hs : assignScoresQStable eps expF scores =
      fun i j => assignScoresQ eps expF scores i j *
        expF (-(scoresMax eps scores)) := by
    funext i j
    show expF (scores j i / eps - scoresMax eps scores) = _
    rw [sub_eq_add_neg, hhom]
    rfl
  have hinit : sinkhornInit (assignScoresQStable eps expF scores) =
      sinkhornInit (assignScoresQ eps expF scores) := by
    rw [hs]
    funext i j
    show (assignScoresQ eps expF scores i j * expF (-(scoresMax eps scores))) /
        totalSum (fun i j => assignScoresQ eps expF scores i j *
          expF (-(scoresMax eps scores))) =
      assignScoresQ eps expF scores i j / totalSum (assignScoresQ eps expF scores)
    have hT : totalSum (fun i j => assignScoresQ eps expF scores i j *
        expF (-(scoresMax eps scores))) =
        totalSum (assignScoresQ eps expF scores) * expF (-(scoresMax eps scores)) := by
      simp only [totalSum, ← Finset.sum_mul]
    rw [hT, mul_div_mul_right _ _ (hne _)]
  have hbody : sinkhornBody ws iters (assignScoresQStable eps expF scores) =
      sinkhornBody ws iters (assignScoresQ eps expF scores) := by
    unfold sinkhornBody
    rw [hinit]
  unfold assignTargetsStable assignTargets distributed_sinkhorn
  funext j i
  rw [hbody]

/-- Witness for C7: both modes evaluated at a concrete input with the
exponential stand-in `expOne`, which satisfies both hypotheses. -/
theorem stability_shift_cancels_holds :
    assignTargetsStable (K := 0) (N := 0) 1 1 1 expOne (fun _ _ => 0) =
      assignTargets (K := 0) (N := 0) 1 1 1 expOne (fun _ _ => 0) :=
  stability_shift_cancels 1 1 1 expOne (fun x y => by norm_num [expOne])
    (fun x => by norm_num [expOne]) (fun _ _ => 0)

/-! ## Infinity-guard helper lemmas -/

theorem fmax_isinf_false {a b : FVal} (ha : a.isinf = false) (hb : b.isinf = false) :
    (FVal.fmax a b).isinf = false := by
  cases a <;> cases b <;> simp_all [FVal.fmax, FVal.isinf]

theorem foldl_fmax_isinf_false :
    ∀ (l : List FVal) (a : FVal), a.isinf = false →
      (∀ x ∈ l, x.isinf = false) → (l.foldl FVal.fmax a).isinf = false := by
  intro l
  induction l with
  | nil => intro a ha _; exact ha
  | cons x xs ih =>
    intro a ha h
    exact ih _ (fmax_isinf_false ha (h x (by simp)))
      (fun y hy => h y (by simp [hy]))

theorem fmaxList_isinf_false {l : List FVal} (h : ∀ x ∈ l, x.isinf = false) :
    (fmaxList l).isinf = false := by
  cases l with
  | nil => rfl
  | cons x xs =>
    exact foldl_fmax_isinf_false xs x (h x (by simp)) (fun y hy => h y (by simp [hy]))

theorem zeroed_isinf_false (t : List FVal) :
    ∀ x ∈ t.map (fun v => if v.isinf then FVal.fin 0 else v), x.isinf = false := by
  intro x hx
  rcases List.mem_map.mp hx with ⟨v, _, rfl⟩
  by_cases hv : v.isinf = true
  · rw [if_pos hv]; rfl
  · rw [if_neg hv]; simpa using hv

theorem shoot_infs_no_inf (t : List FVal) : (shoot_infs t).any FVal.isinf = false := by
  unfold shoot_infs
  split
  · rw [List.any_eq_false]
    intro x hx
    rcases List.mem_map.mp hx with ⟨v, _, rfl⟩
    by_cases hvi : v.isinf = true
    · have hm := fmaxList_isinf_false (zeroed_isinf_false t)
      rw [if_pos hvi]
      simp [hm]
    · rw [if_neg hvi]
      exact hvi
  · next h => simpa using h

theorem shoot_infs_of_no_inf {t : List FVal} (h : t.any FVal.isinf = false) :
    shoot_infs t = t := by
  unfold shoot_infs
  simp [h]

theorem shoot_infs_getD_nan (t : List FVal) (i : ℕ)
    (h : t.getD i FVal.nan = FVal.nan) :
    (shoot_infs t).getD i FVal.nan = FVal.nan := by
  unfold shoot_infs
  split
  · rcases Nat.lt_or_ge i t.length with hi | hi
    · rw [List.getD_eq_getElem _ _ hi] at h
      have hi2 : i < (t.map fun v =>
          if v.isinf then
            fmaxList (t.map fun x => if x.isinf then FVal.fin 0 else x)
          else v).length := by
        simpa using hi
      rw [List.getD_eq_getElem _ _ hi2, List.getElem_map, h]
      simp [FVal.isinf]
    · rw [List.getD_eq_default _ _ (by simpa using hi)]
  · exact h

theorem flat_zeroed_isinf_false (t : List (List FVal)) :
    ∀ x ∈ (t.map fun r => r.map fun v =>
        if v.isinf then FVal.fin 0 else v).flatten, x.isinf = false := by
  intro x hx
  rcases List.mem_flatten.mp hx with ⟨row, hrow, hxrow⟩
  rcases List.mem_map.mp hrow with ⟨r, _, rfl⟩
  rcases List.mem_map.mp hxrow with ⟨v, _, rfl⟩
  by_cases hv : v.isinf = true
  · rw [if_pos hv]; rfl
  · rw [if_neg hv]; simpa using hv

theorem shoot_infs2_no_inf (t : List (List FVal)) :
    (shoot_infs2 t).any (fun row => row.any FVal.isinf) = false := by
  unfold shoot_infs2
  split
  · rw [List.any_eq_false]
    intro row hrow
    rcases List.mem_map.mp hrow with ⟨r, _, rfl⟩
    intro hr
    rw [List.any_eq_true] at hr
    rcases hr with ⟨x, hx, hxi⟩
    rcases List.mem_map.mp hx with ⟨v, _, rfl⟩
    by_cases hvi : v.isinf = true
    · have hm := fmaxList_isinf_false (flat_zeroed_isinf_false t)
      rw [if_pos hvi] at hxi
      simp [hm] at hxi
    · rw [if_neg hvi] at hxi
      exact hvi hxi
  · next h => simpa using h

theorem shoot_infs2_of_no_inf {t : List (List FVal)}
    (h : t.any (fun row => row.any FVal.isinf) = false) : shoot_infs2 t = t := by
  unfold shoot_infs2
  simp [h]

/-! ## Claim theorems about the infinity guard -/

/-- Counterexample to claim C4 as stated: `torch.isinf` is false on NaN,
so a NaN entry is neither detected nor replaced — `shoot_infs` returns the
tensor `[NaN]` unchanged, and the returned tensor still has a non-finite
entry. -/
theorem shoot_infs_nan_counterexample :
    shoot_infs [FVal.nan] = [FVal.nan]
    ∧ (shoot_infs [FVal.nan]).any FVal.isNonFinite = true := by
  refine ⟨by decide, by decide⟩

/-- Claim C4 amended: `shoot_infs` replaces every INFINITE entry (NaN is
not infinite under `torch.isinf` and is never replaced) with the maximum
of the tensor computed after a first pass zeroes the infinite entries, so
the returned tensor has no infinite entries; a tensor with no infinite
entries — in particular one with no non-finite entries — is returned
unchanged; NaN entries are preserved in place. Both 1-D and 2-D tensors
are handled. -/
theorem shoot_infs_spec :
    (∀ t : List FVal, (shoot_infs t).any FVal.isinf = false)
    ∧ (∀ t : List FVal, t.any FVal.isinf = false → shoot_infs t = t)
    ∧ (∀ (t : List FVal) (i : ℕ), t.getD i FVal.nan = FVal.nan →
        (shoot_infs t).getD i FVal.nan = FVal.nan)
    ∧ (∀ t2 : List (List FVal),
        (shoot_infs2 t2).any (fun row => row.any FVal.isinf) = false)
    ∧ (∀ t2 : List (List FVal),
        t2.any (fun row => row.any FVal.isinf) = false → shoot_infs2 t2 = t2) :=
  ⟨shoot_infs_no_inf, fun _ h => shoot_infs_of_no_inf h, shoot_infs_getD_nan,
    shoot_infs2_no_inf, fun _ h => shoot_infs2_of_no_inf h⟩

/-- Witness for the amended C4: the guard evaluated on concrete 1-D and
2-D tensors with and without infinities. -/
theorem shoot_infs_spec_holds :
    (shoot_infs [FVal.inf true, FVal.fin 3]).any FVal.isinf = false
    ∧ shoot_infs [FVal.fin 2] = [FVal.fin 2]
    ∧ (shoot_infs [FVal.nan, FVal.inf true]).getD 0 FVal.nan = FVal.nan
    ∧ (shoot_infs2 [[FVal.inf false]]).any (fun row => row.any FVal.isinf) = false
    ∧ shoot_infs2 [[FVal.fin 1]] = [[FVal.fin 1]] :=
  ⟨shoot_infs_spec.1 _, shoot_infs_spec.2.1 _ (by decide),
    shoot_infs_spec.2.2.1 _ 0 (by decide), shoot_infs_spec.2.2.2.1 _,
    shoot_infs_spec.2.2.2.2 _ (by decide)⟩

/-! ## Evaluation of the inner loop on the zero-column input -/

theorem fscaleRows_fQEx_eval :
    fscaleRows (frowFactors (FVal.fin (1/2)) fQEx) fQEx = fQEx := by
  norm_num [fscaleRows, frowFactors, frowSums, fsum, fQEx, shoot_infs, FVal.add,
    FVal.div, FVal.mul, FVal.isinf]

theorem fQEx_transpose_eval :
    fQEx.transpose = [[FVal.fin (1/2), FVal.fin (1/2)], [FVal.fin 0, FVal.fin 0]] := rfl

theorem fcolFactors_fQEx_eval :
    fcolFactors (FVal.fin (1/2)) fQEx = [FVal.fin (1/2), FVal.inf true] := by
  unfold fcolFactors fcolSums
  rw [fQEx_transpose_eval]
  norm_num [fsum, FVal.add, FVal.div]

theorem fsinkhornStep_fQEx_eval :
    fsinkhornStep (FVal.fin (1/2)) (FVal.fin (1/2)) fQEx =
      [[FVal.fin (1/4), FVal.nan], [FVal.fin (1/4), FVal.nan]] := by
  rw [fsinkhornStep, fscaleRows_fQEx_eval, fcolFactors_fQEx_eval]
  norm_num [fscaleCols, fQEx, FVal.mul]

theorem fsinkhornStepColGuarded_fQEx_eval :
    fsinkhornStepColGuarded (FVal.fin (1/2)) (FVal.fin (1/2)) fQEx =
      [[FVal.fin (1/4), FVal.fin 0], [FVal.fin (1/4), FVal.fin 0]] := by
  rw [fsinkhornStepColGuarded, fscaleRows_fQEx_eval, fcolFactors_fQEx_eval]
  have hg : shoot_infs [FVal.fin (1/2), FVal.inf true] =
      [FVal.fin (1/2), FVal.fin (1/2)] := by
    norm_num [shoot_infs, fmaxList, FVal.isinf, FVal.fmax]
  rw [hg]
  norm_num [fscaleCols, fQEx, FVal.mul]

/-! ## Claim theorems about where the guard is applied in the loop -/

/-- Counterexample to claim C5 as stated: on the concrete inner-loop
state with an exactly-zero second column, the column factors
`c / colSums` contain `+∞`, the source loop body (which guards only the
row factors) differs from the variant that sanitizes the column factors
as the claim describes, and the resulting matrix contains a non-finite
entry (`0 · ∞ = NaN`) — the infinity was NOT sanitized before the next
multiplication of `Q`. -/
theorem col_factors_unguarded_counterexample :
    (fcolFactors (FVal.fin (1/2))
        (fscaleRows (frowFactors (FVal.fin (1/2)) fQEx) fQEx)).any FVal.isinf = true
    ∧ fsinkhornStep (FVal.fin (1/2)) (FVal.fin (1/2)) fQEx ≠
        fsinkhornStepColGuarded (FVal.fin (1/2)) (FVal.fin (1/2)) fQEx
    ∧ (fsinkhornStep (FVal.fin (1/2)) (FVal.fin (1/2)) fQEx).any
        (fun row => row.any FVal.isNonFinite) = true := by
  refine ⟨?_, ?_, ?_⟩
  · rw [fscaleRows_fQEx_eval, fcolFactors_fQEx_eval]
    decide
  · rw [fsinkhornStep_fQEx_eval, fsinkhornStepColGuarded_fQEx_eval]
    simp
  · rw [fsinkhornStep_fQEx_eval]
    decide

/-- Claim C5 amended: in every iteration the row factors
`u = r / rowSums` ARE sanitized by the guard before the row multiply, so
the row-factor vector never contains an infinity; the column factors
`c / colSums` of line 411 are applied with NO sanitization, so an
exactly-zero column sum puts an infinite factor into the multiplication
(which turns the zero entries of that column into NaN). -/
theorem row_factors_guarded :
    (∀ (r : FVal) (Q : List (List FVal)), (frowFactors r Q).any FVal.isinf = false)
    ∧ (fcolFactors (FVal.fin (1/2))
        (fscaleRows (frowFactors (FVal.fin (1/2)) fQEx) fQEx)).any FVal.isinf = true
    ∧ (fsinkhornStep (FVal.fin (1/2)) (FVal.fin (1/2)) fQEx).any
        (fun row => row.any FVal.isNonFinite) = true := by
  refine ⟨fun r Q => shoot_infs_no_inf _, ?_, ?_⟩
  · rw [fscaleRows_fQEx_eval, fcolFactors_fQEx_eval]
    decide
  · rw [fsinkhornStep_fQEx_eval]
    decide

end Uota



